import Mathlib

set_option maxHeartbeats 800000

/-
Verification of the line framer, record decoders, relay channel, ring
buffer, session bookkeeping and command/response exchange of the
XIAO-to-dashboard streaming scripts.  Byte streams are modelled as
`List Nat` (byte values), text as `List Char`, and Python floats as `ℚ`.
-/

/-- Terminator test: a byte ends a frame when it is LF (10) or CR (13);
models the `buffer.find(b"\n")` / `buffer.find(b"\r")` pair of probes. -/
def isTerm (b : Nat) : Bool := b == 10 || b == 13

/-- Python `bytes.find` semantics, index of the first byte satisfying `p`. -/
def pyFind (p : Nat → Bool) : List Nat → Option Nat
  | [] => none
  | b :: rest => if p b then some 0 else (pyFind p rest).map (· + 1)

/-- Index of the earliest terminator, combining the two finds exactly the way
`handle_notify` / `reader_thread_fn` combine `npos` and `rpos`
(take the minimum when both occur, otherwise whichever exists). -/
def firstTermIdx (buf : List Nat) : Option Nat :=
  match pyFind (· == 10) buf, pyFind (· == 13) buf with
  | some n, some r => some (min n r)
  | some n, none => some n
  | none, some r => some r
  | none, none => none

/-- Number of bytes consumed by one loop iteration that found a terminator at
index `term`: the terminator itself, plus one immediately following terminator
byte when it is already in the buffer (`buffer[drop:drop+1] in (b"\n", b"\r")`). -/
def pbDrop (buf : List Nat) (term : Nat) : Nat :=
  if term + 1 < buf.length ∧ isTerm (buf.getD (term + 1) 0) = true
  then term + 1 + 1 else term + 1

/-- One step of the while-loop in `handle_notify` / `reader_thread_fn`, with
explicit fuel bounding the number of iterations: each iteration removes at
least one byte, so `buf.length` fuel is always enough.  On each iteration the
bytes before the earliest terminator become one frame and `pbDrop` bytes are
consumed. -/
def processBufferAux : Nat → List Nat → List (List Nat) × List Nat
  | 0, buf => ([], buf)
  | fuel + 1, buf =>
    match firstTermIdx buf with
    | none => ([], buf)
    | some term =>
      let p := processBufferAux fuel (buf.drop (pbDrop buf term))
      (buf.take term :: p.1, p.2)

/-- One call of the framer on a buffer: run the splitting loop to exhaustion.
The returned pair is (emitted frames, unconsumed terminator-free tail). -/
def processBuffer (buf : List Nat) : List (List Nat) × List Nat :=
  processBufferAux buf.length buf

/-- Successive framer calls: the tail left by one call is the buffer prefix of
the next (`buffer += data` at the top of `handle_notify`). -/
def feedChunks (buf : List Nat) : List (List Nat) → List (List Nat) × List Nat
  | [] => ([], buf)
  | c :: cs =>
    let p := processBuffer (buf ++ c)
    let q := feedChunks p.2 cs
    (p.1 ++ q.1, q.2)

/-- Frames surviving the decoder's first guard: the decoders reject empty
frames, so empty frames never become records. -/
def dropEmpties (fs : List (List Nat)) : List (List Nat) :=
  fs.filter (fun f => !f.isEmpty)

/-- Effect of the pair-skip on the bytes following a consumed terminator:
drop one more byte when it is itself a terminator. -/
def skipPair : List Nat → List Nat
  | [] => []
  | c :: r => if isTerm c = true then r else c :: r

/-- Canonical line splitter used as proof vehicle: every terminator ends a
line, no pair collapsing; the second component is the text after the last
terminator. -/
def segs : List Nat → List (List Nat) × List Nat
  | [] => ([], [])
  | b :: rest =>
    let p := segs rest
    if isTerm b = true then ([] :: p.1, p.2)
    else
      match p.1 with
      | [] => ([], b :: p.2)
      | f :: fs => ((b :: f) :: fs, p.2)

/-- Prepend a terminator-free run to the first line of a split result. -/
def consFirst (a : List Nat) (p : List (List Nat) × List Nat) :
    List (List Nat) × List Nat :=
  match p.1 with
  | [] => ([], a ++ p.2)
  | f :: fs => ((a ++ f) :: fs, p.2)

-- ---------------------------------------------------------------------------
-- basic list lemmas used by the framer proofs

theorem take_len {α : Type} (a u : List α) : (a ++ u).take a.length = a := by
  induction a with
  | nil => simp
  | cons x a ih => simp [ih]

theorem drop_len_add {α : Type} (a u : List α) (n : Nat) :
    (a ++ u).drop (a.length + n) = u.drop n := by
  induction a with
  | nil => simp
  | cons x a ih => simpa [Nat.succ_add] using ih

theorem getD_len_add {α : Type} (a u : List α) (n : Nat) (d : α) :
    (a ++ u).getD (a.length + n) d = u.getD n d := by
  induction a with
  | nil => simp
  | cons x a ih => simpa [Nat.succ_add] using ih

theorem drop_append_le {α : Type} (a b : List α) (m : Nat) (h : m ≤ a.length) :
    a.drop m ++ b = (a ++ b).drop m := by
  induction a generalizing m with
  | nil => simp at h; simp [h]
  | cons x a ih =>
    cases m with
    | zero => simp
    | succ m => simpa using ih m (by simpa using h)

-- ---------------------------------------------------------------------------
-- firstTermIdx facts

theorem pyFind_cons (p : Nat → Bool) (b : Nat) (rest : List Nat) :
    pyFind p (b :: rest) =
      if p b then some 0 else (pyFind p rest).map (· + 1) := rfl

theorem firstTermIdx_nil : firstTermIdx [] = none := rfl

theorem firstTermIdx_cons (b : Nat) (rest : List Nat) :
    firstTermIdx (b :: rest) =
      if isTerm b = true then some 0 else (firstTermIdx rest).map (· + 1) := by
  unfold firstTermIdx
  rw [pyFind_cons, pyFind_cons]
  by_cases h10 : (b == 10) = true
  · rw [if_pos h10, if_pos (show isTerm b = true by simp [isTerm, h10])]
    by_cases h13 : (b == 13) = true
    · rw [if_pos h13]
      show some (min 0 0) = some 0
      simp
    · rw [if_neg h13]
      cases pyFind (· == 13) rest with
      | none => rfl
      | some r =>
        show some (min 0 (r + 1)) = some 0
        simp
  · rw [if_neg h10]
    by_cases h13 : (b == 13) = true
    · rw [if_pos h13, if_pos (show isTerm b = true by simp [isTerm, h13])]
      cases pyFind (· == 10) rest with
      | none => rfl
      | some n =>
        show some (min (n + 1) 0) = some 0
        simp
    · rw [if_neg h13,
        if_neg (show ¬ isTerm b = true by simp [isTerm, h10, h13])]
      cases pyFind (· == 10) rest with
      | none =>
        cases pyFind (· == 13) rest with
        | none => rfl
        | some r => rfl
      | some n =>
        cases pyFind (· == 13) rest with
        | none => rfl
        | some r =>
          show some (min (n + 1) (r + 1)) = some (min n r + 1)
          rw [Nat.succ_min_succ]

theorem firstTermIdx_none_of_termfree (buf : List Nat)
    (h : ∀ b ∈ buf, isTerm b = false) : firstTermIdx buf = none := by
  induction buf with
  | nil => rfl
  | cons b rest ih =>
    have hb : isTerm b = false := h b (by simp)
    rw [firstTermIdx_cons, if_neg (by simp [hb])]
    rw [ih (fun x hx => h x (by simp [hx]))]
    rfl

theorem firstTermIdx_sound (buf : List Nat) (i : Nat)
    (h : firstTermIdx buf = some i) :
    ∃ a T rest, buf = a ++ T :: rest ∧ a.length = i ∧
      (∀ b ∈ a, isTerm b = false) ∧ isTerm T = true := by
  induction buf generalizing i with
  | nil => simp [firstTermIdx_nil] at h
  | cons b rest ih =>
    rw [firstTermIdx_cons] at h
    by_cases hb : isTerm b = true
    · rw [if_pos hb] at h
      refine ⟨[], b, rest, by simp, ?_, by simp, hb⟩
      simpa using Option.some_inj.mp h
    · rw [if_neg hb] at h
      cases hFT : firstTermIdx rest with
      | none => rw [hFT] at h; simp at h
      | some j =>
        rw [hFT] at h
        simp at h
        obtain ⟨a, T, r2, hdec, hlen, hA, hT⟩ := ih j hFT
        refine ⟨b :: a, T, r2, by simp [hdec], by simpa [hlen] using h, ?_, hT⟩
        intro x hx
        rw [List.mem_cons] at hx
        rcases hx with hx | hx
        · rw [hx]
          exact eq_false_of_ne_true hb
        · exact hA x hx

theorem firstTermIdx_lt (buf : List Nat) (i : Nat)
    (h : firstTermIdx buf = some i) : i < buf.length := by
  obtain ⟨a, T, rest, hdec, hlen, _, _⟩ := firstTermIdx_sound buf i h
  subst hdec
  simp only [List.length_append, List.length_cons, ← hlen]
  omega

-- ---------------------------------------------------------------------------
-- processBuffer unfolding lemmas

theorem pbDrop_pos (buf : List Nat) (term : Nat) : 1 ≤ pbDrop buf term := by
  unfold pbDrop
  split <;> omega

theorem processBufferAux_succ (fuel : Nat) (buf : List Nat) (term : Nat)
    (h : firstTermIdx buf = some term) :
    processBufferAux (fuel + 1) buf =
      (buf.take term :: (processBufferAux fuel (buf.drop (pbDrop buf term))).1,
        (processBufferAux fuel (buf.drop (pbDrop buf term))).2) := by
  simp only [processBufferAux, h]

theorem processBufferAux_none (fuel : Nat) (buf : List Nat)
    (h : firstTermIdx buf = none) :
    processBufferAux fuel buf = ([], buf) := by
  cases fuel with
  | zero => rfl
  | succ fuel => simp only [processBufferAux, h]

theorem processBufferAux_irrel (f g : Nat) (buf : List Nat)
    (hf : buf.length ≤ f) (hg : buf.length ≤ g) :
    processBufferAux f buf = processBufferAux g buf := by
  induction f generalizing g buf with
  | zero =>
    have hbuf : buf = [] := by
      cases buf with
      | nil => rfl
      | cons x xs => simp at hf
    subst hbuf
    rw [processBufferAux_none 0 [] firstTermIdx_nil,
      processBufferAux_none g [] firstTermIdx_nil]
  | succ f ih =>
    cases hFT : firstTermIdx buf with
    | none => rw [processBufferAux_none _ _ hFT, processBufferAux_none _ _ hFT]
    | some term =>
      cases g with
      | zero =>
        have := firstTermIdx_lt buf term hFT
        omega
      | succ g =>
        rw [processBufferAux_succ f buf term hFT,
          processBufferAux_succ g buf term hFT]
        have hd := pbDrop_pos buf term
        have hlt := firstTermIdx_lt buf term hFT
        have hlen : (buf.drop (pbDrop buf term)).length ≤ f ∧
            (buf.drop (pbDrop buf term)).length ≤ g := by
          constructor <;> (simp only [List.length_drop]; omega)
        rw [ih g (buf.drop (pbDrop buf term)) hlen.1 hlen.2]

theorem processBufferAux_eq (f : Nat) (buf : List Nat) (hf : buf.length ≤ f) :
    processBufferAux f buf = processBuffer buf :=
  processBufferAux_irrel f buf.length buf hf le_rfl

theorem processBuffer_nil : processBuffer [] = ([], []) := rfl

theorem processBuffer_of_termfree (buf : List Nat)
    (h : ∀ b ∈ buf, isTerm b = false) : processBuffer buf = ([], buf) :=
  processBufferAux_none buf.length buf (firstTermIdx_none_of_termfree buf h)

theorem firstTermIdx_split (a : List Nat) (T : Nat) (rest : List Nat)
    (hA : ∀ b ∈ a, isTerm b = false) (hT : isTerm T = true) :
    firstTermIdx (a ++ T :: rest) = some a.length := by
  induction a with
  | nil => simp [firstTermIdx_cons, hT]
  | cons x a ih =>
    have hx : isTerm x = false := hA x (by simp)
    rw [List.cons_append, firstTermIdx_cons, if_neg (by simp [hx])]
    rw [ih (fun b hb => hA b (by simp [hb]))]
    rfl

theorem pbDrop_split (a : List Nat) (T : Nat) (rest : List Nat) :
    (a ++ T :: rest).drop (pbDrop (a ++ T :: rest) a.length) = skipPair rest := by
  unfold pbDrop
  cases rest with
  | nil =>
    rw [if_neg (by intro hcon; have := hcon.1; simp at this)]
    have h1 : (a ++ [T]).drop (a.length + 1) = [T].drop 1 := drop_len_add a [T] 1
    rw [h1]
    rfl
  | cons c r =>
    have hget : (a ++ T :: c :: r).getD (a.length + 1) 0 = c := by
      have h2 := getD_len_add a (T :: c :: r) 1 0
      simpa using h2
    by_cases hc : isTerm c = true
    · rw [if_pos ⟨by simp only [List.length_append, List.length_cons]; omega,
        by rw [hget]; exact hc⟩]
      have h3 : (a ++ T :: c :: r).drop (a.length + 2) = (T :: c :: r).drop 2 :=
        drop_len_add a (T :: c :: r) 2
      have h4 : a.length + 1 + 1 = a.length + 2 := rfl
      rw [h4, h3]
      simp [skipPair, hc]
    · rw [if_neg (by intro hcon; rw [hget] at hcon; exact hc hcon.2)]
      have h5 : (a ++ T :: c :: r).drop (a.length + 1) = (T :: c :: r).drop 1 :=
        drop_len_add a (T :: c :: r) 1
      rw [h5]
      simp [skipPair, hc]

/-- Splitting the loop step off the source recursion: for a terminator-free
prefix `a` and a terminator `T`, one framer iteration emits `a` and continues
on the remainder with at most one paired terminator skipped. -/
theorem processBuffer_split (a : List Nat) (T : Nat) (rest : List Nat)
    (hA : ∀ b ∈ a, isTerm b = false) (hT : isTerm T = true) :
    processBuffer (a ++ T :: rest) =
      (a :: (processBuffer (skipPair rest)).1, (processBuffer (skipPair rest)).2) := by
  have hFT := firstTermIdx_split a T rest hA hT
  have hlen : (a ++ T :: rest).length = (a.length + rest.length) + 1 := by
    simp
    omega
  rw [processBuffer, hlen,
    processBufferAux_succ (a.length + rest.length) (a ++ T :: rest) a.length hFT]
  rw [take_len a (T :: rest), pbDrop_split a T rest]
  have hsk : (skipPair rest).length ≤ a.length + rest.length := by
    cases rest with
    | nil => simp [skipPair]
    | cons c r =>
      simp only [skipPair]
      by_cases hc : isTerm c = true
      · rw [if_pos hc]
        simp only [List.length_cons]
        omega
      · rw [if_neg hc]
        simp only [List.length_cons]
        omega
  rw [processBufferAux_eq (a.length + rest.length) (skipPair rest) hsk]

-- ---------------------------------------------------------------------------
-- canonical splitter facts

theorem segs_nil : segs [] = ([], []) := rfl

theorem segs_cons_term (b : Nat) (rest : List Nat) (hb : isTerm b = true) :
    segs (b :: rest) = ([] :: (segs rest).1, (segs rest).2) := by
  simp [segs, hb]

theorem segs_cons_nonterm (b : Nat) (rest : List Nat) (hb : isTerm b = false) :
    segs (b :: rest) = consFirst [b] (segs rest) := by
  simp only [segs, hb]
  cases h1 : (segs rest).1 with
  | nil => simp [consFirst, h1]
  | cons f fs => simp [consFirst, h1]

theorem consFirst_nil_run (p : List (List Nat) × List Nat) :
    consFirst [] p = p := by
  cases p with
  | mk fs lo =>
    cases fs with
    | nil => rfl
    | cons f fs => rfl

theorem consFirst_eq_nil (x : List Nat) (p : List (List Nat) × List Nat)
    (h : p.1 = []) : consFirst x p = ([], x ++ p.2) := by
  unfold consFirst
  rw [h]

theorem consFirst_eq_cons (x : List Nat) (p : List (List Nat) × List Nat)
    (f : List Nat) (fs : List (List Nat)) (h : p.1 = f :: fs) :
    consFirst x p = ((x ++ f) :: fs, p.2) := by
  unfold consFirst
  rw [h]

theorem consFirst_append (a b : List Nat) (p : List (List Nat) × List Nat) :
    consFirst a (consFirst b p) = consFirst (a ++ b) p := by
  cases p with
  | mk fs lo =>
    cases fs with
    | nil => simp [consFirst]
    | cons f fs => simp [consFirst]

theorem segs_termfree_append (a u : List Nat)
    (h : ∀ b ∈ a, isTerm b = false) :
    segs (a ++ u) = consFirst a (segs u) := by
  induction a with
  | nil => rw [List.nil_append, consFirst_nil_run]
  | cons x a ih =>
    rw [List.cons_append, segs_cons_nonterm x _ (h x (by simp)),
      ih (fun b hb => h b (by simp [hb]))]
    rw [consFirst_append]
    rfl

theorem segs_of_termfree (a : List Nat) (h : ∀ b ∈ a, isTerm b = false) :
    segs a = ([], a) := by
  have h1 := segs_termfree_append a [] h
  rw [List.append_nil] at h1
  rw [h1, segs_nil, consFirst_eq_nil a ([], []) rfl, List.append_nil]

theorem segs_leftover_termfree (l : List Nat) :
    ∀ b ∈ (segs l).2, isTerm b = false := by
  induction l with
  | nil => intro b hb; simp [segs_nil] at hb
  | cons c rest ih =>
    by_cases hc : isTerm c = true
    · rw [segs_cons_term c rest hc]
      exact ih
    · rw [segs_cons_nonterm c rest (eq_false_of_ne_true hc)]
      cases h1 : (segs rest).1 with
      | nil =>
        rw [consFirst_eq_nil [c] _ h1]
        intro b hb
        rw [List.singleton_append, List.mem_cons] at hb
        rcases hb with hb | hb
        · rw [hb]; exact eq_false_of_ne_true hc
        · exact ih b hb
      | cons f fs =>
        rw [consFirst_eq_cons [c] _ f fs h1]
        exact ih

theorem segs_hom (s t : List Nat) :
    segs (s ++ t) =
      ((segs s).1 ++ (segs ((segs s).2 ++ t)).1, (segs ((segs s).2 ++ t)).2) := by
  induction s with
  | nil => simp [segs_nil]
  | cons b s ih =>
    by_cases hb : isTerm b = true
    · rw [List.cons_append, segs_cons_term b (s ++ t) hb, ih,
        segs_cons_term b s hb]
      rfl
    · have hb2 : isTerm b = false := eq_false_of_ne_true hb
      rw [List.cons_append, segs_cons_nonterm b (s ++ t) hb2, ih]
      cases h1 : (segs s).1 with
      | cons f fs =>
        have e1 : segs (b :: s) = (([b] ++ f) :: fs, (segs s).2) := by
          rw [segs_cons_nonterm b s hb2, consFirst_eq_cons [b] (segs s) f fs h1]
        rw [e1, List.cons_append]
        show (([b] ++ f) :: (fs ++ (segs ((segs s).2 ++ t)).1),
            (segs ((segs s).2 ++ t)).2) = _
        simp [List.cons_append]
      | nil =>
        have e1 : segs (b :: s) = ([], b :: (segs s).2) := by
          rw [segs_cons_nonterm b s hb2, consFirst_eq_nil [b] (segs s) h1,
            List.singleton_append]
        have e2 : segs ((b :: (segs s).2) ++ t) =
            consFirst [b] (segs ((segs s).2 ++ t)) := by
          rw [List.cons_append, segs_cons_nonterm b _ hb2]
        rw [e1]
        show consFirst [b] ([] ++ (segs ((segs s).2 ++ t)).1,
            (segs ((segs s).2 ++ t)).2) =
          (([] : List (List Nat)) ++ (segs ((b :: (segs s).2) ++ t)).1,
            (segs ((b :: (segs s).2) ++ t)).2)
        rw [e2]
        simp [Prod.mk.eta]

theorem dropEmpties_nil : dropEmpties [] = [] := rfl

theorem dropEmpties_cons (x : List Nat) (xs : List (List Nat)) :
    dropEmpties (x :: xs) =
      if x = [] then dropEmpties xs else x :: dropEmpties xs := by
  cases x with
  | nil => simp [dropEmpties]
  | cons y ys => simp [dropEmpties]

theorem dropEmpties_append (xs ys : List (List Nat)) :
    dropEmpties (xs ++ ys) = dropEmpties xs ++ dropEmpties ys := by
  simp [dropEmpties, List.filter_append]

-- ---------------------------------------------------------------------------
-- the framer agrees with the canonical splitter up to empty frames

theorem pB_eq_segs_aux (n : Nat) : ∀ l : List Nat, l.length ≤ n →
    dropEmpties (processBuffer l).1 = dropEmpties (segs l).1 ∧
      (processBuffer l).2 = (segs l).2 := by
  induction n with
  | zero =>
    intro l hl
    have hnil : l = [] := by
      cases l with
      | nil => rfl
      | cons x xs => simp at hl
    rw [hnil, processBuffer_nil, segs_nil]
    exact ⟨rfl, rfl⟩
  | succ n ih =>
    intro l hl
    cases hFT : firstTermIdx l with
    | none =>
      have htf : ∀ b ∈ l, isTerm b = false := by
        induction l with
        | nil => intro b hb; simp at hb
        | cons c rest ihl =>
          rw [firstTermIdx_cons] at hFT
          by_cases hc : isTerm c = true
          · rw [if_pos hc] at hFT; simp at hFT
          · rw [if_neg hc] at hFT
            intro b hb
            rw [List.mem_cons] at hb
            rcases hb with hb | hb
            · rw [hb]; exact eq_false_of_ne_true hc
            · cases hrest : firstTermIdx rest with
              | none =>
                exact ihl (by simp at hl; omega) hrest b hb
              | some j => rw [hrest] at hFT; simp at hFT
      rw [processBuffer_of_termfree l htf, segs_of_termfree l htf]
      exact ⟨rfl, rfl⟩
    | some i =>
      obtain ⟨a, T, rest, hdec, hlen, hA, hT⟩ := firstTermIdx_sound l i hFT
      subst hdec
      rw [processBuffer_split a T rest hA hT]
      have hseg : segs (a ++ T :: rest) =
          (a :: (segs rest).1, (segs rest).2) := by
        rw [segs_termfree_append a (T :: rest) hA, segs_cons_term T rest hT]
        rw [consFirst_eq_cons a _ [] (segs rest).1 rfl, List.append_nil]
      rw [hseg]
      cases rest with
      | nil =>
        constructor
        · show dropEmpties (a :: (processBuffer (skipPair [])).1) =
            dropEmpties (a :: (segs []).1)
          rfl
        · rfl
      | cons c r =>
        have hl2 : a.length + r.length + 3 ≤ n + 2 := by
          have := hl
          simp only [List.length_append, List.length_cons] at this
          omega
        by_cases hc : isTerm c = true
        · have hskip : skipPair (c :: r) = r := by simp [skipPair, hc]
          rw [hskip, segs_cons_term c r hc]
          have hr := ih r (by omega)
          constructor
          · show dropEmpties (a :: (processBuffer r).1) =
              dropEmpties (a :: [] :: (segs r).1)
            simp [dropEmpties_cons, hr.1]
          · exact hr.2
        · have hskip : skipPair (c :: r) = c :: r := by simp [skipPair, hc]
          rw [hskip]
          have hcr := ih (c :: r) (by simp only [List.length_cons]; omega)
          constructor
          · show dropEmpties (a :: (processBuffer (c :: r)).1) =
              dropEmpties (a :: (segs (c :: r)).1)
            simp [dropEmpties_cons, hcr.1]
          · exact hcr.2

theorem pB_eq_segs (l : List Nat) :
    dropEmpties (processBuffer l).1 = dropEmpties (segs l).1 ∧
      (processBuffer l).2 = (segs l).2 :=
  pB_eq_segs_aux l.length l le_rfl

theorem feedChunks_eq_segs (cs : List (List Nat)) :
    ∀ B : List Nat, (∀ b ∈ B, isTerm b = false) →
    dropEmpties (feedChunks B cs).1 = dropEmpties (segs (B ++ cs.flatten)).1 ∧
      (feedChunks B cs).2 = (segs (B ++ cs.flatten)).2 := by
  induction cs with
  | nil =>
    intro B hB
    rw [show ([] : List (List Nat)).flatten = [] from rfl, List.append_nil,
      segs_of_termfree B hB]
    exact ⟨rfl, rfl⟩
  | cons c cs ih =>
    intro B hB
    have hpc := pB_eq_segs (B ++ c)
    have hB2 : ∀ b ∈ (processBuffer (B ++ c)).2, isTerm b = false := by
      rw [hpc.2]
      exact segs_leftover_termfree (B ++ c)
    have hq := ih (processBuffer (B ++ c)).2 hB2
    have hjoin : B ++ (c :: cs).flatten = (B ++ c) ++ cs.flatten := by
      rw [show (c :: cs).flatten = c ++ cs.flatten from rfl]
      exact (List.append_assoc B c cs.flatten).symm
    have hom := segs_hom (B ++ c) cs.flatten
    constructor
    · show dropEmpties ((processBuffer (B ++ c)).1 ++
          (feedChunks (processBuffer (B ++ c)).2 cs).1) = _
      rw [dropEmpties_append, hpc.1, hq.1, hjoin, hom]
      rw [dropEmpties_append, hpc.2]
    · show (feedChunks (processBuffer (B ++ c)).2 cs).2 = _
      rw [hq.2, hjoin, hom, hpc.2]

-- ---------------------------------------------------------------------------
-- framer claims

/-- C1 (amended).  Feeding a byte stream to the line framer in one call and
feeding it split across arbitrarily many sub-chunks yield the same extracted
frame sequence after discarding empty frames (equivalently, the same decoded
record sequence, since the decoders reject empty frames); the unconsumed
buffer tail is also identical.  The unamended claim fails only in that a split
falling between the two bytes of a terminator pair can add an empty frame. -/
theorem claim_C1 (chunks : List (List Nat)) :
    dropEmpties (feedChunks [] chunks).1 =
      dropEmpties (processBuffer chunks.flatten).1 ∧
    (feedChunks [] chunks).2 = (processBuffer chunks.flatten).2 := by
  have h1 := feedChunks_eq_segs chunks [] (by intro b hb; simp at hb)
  rw [List.nil_append] at h1
  have h2 := pB_eq_segs chunks.flatten
  exact ⟨by rw [h1.1, h2.1], by rw [h1.2, h2.2]⟩

/-- C1 counterexample.  The stream "a\r\n" fed as one call yields the single
frame "a", but fed as the two chunks "a\r" and "\n" (split exactly at a
terminator byte) it yields the frames "a" and "", so the extracted frame
sequences differ, refuting the claim as stated. -/
theorem claim_C1_cex :
    (feedChunks [] [[97, 13], [10]]).1 ≠
      (processBuffer ([[97, 13], [10]] : List (List Nat)).flatten).1 := by
  decide

/-- C4.  Feeding the framer the stream "a\r\n" ++ "b\r\n" (bytes
97 13 10 98 13 10) yields exactly the two frames "a" and "b" — never three —
with no terminator byte retained in a frame and an empty leftover buffer. -/
theorem claim_C4 :
    feedChunks [] [[97, 13, 10, 98, 13, 10]] = ([[97], [98]], []) := by
  decide

/-- C10.  After emitting a frame the framer consumes one immediately following
terminator byte of either kind, so any two consecutive terminator bytes in the
same buffer (also "\n\n" and "\r\r", not only "\r\n") collapse into a single
terminator and a single blank line between two records yields no empty frame:
the output is the frame before the pair followed directly by the frames of the
remainder. -/
theorem claim_C10 (a rest : List Nat) (t1 t2 : Nat)
    (hA : ∀ b ∈ a, isTerm b = false)
    (h1 : isTerm t1 = true) (h2 : isTerm t2 = true) :
    processBuffer (a ++ t1 :: t2 :: rest) =
      (a :: (processBuffer rest).1, (processBuffer rest).2) := by
  rw [processBuffer_split a t1 (t2 :: rest) hA h1]
  simp [skipPair, h2]

/-- Witness for C10 at the concrete stream "a" LF LF "b" LF. -/
theorem claim_C10_witness :
    (∀ b ∈ [97], isTerm b = false) ∧ isTerm 10 = true ∧ isTerm 10 = true ∧
    processBuffer ([97] ++ 10 :: 10 :: [98, 10]) =
      ([97] :: (processBuffer [98, 10]).1, (processBuffer [98, 10]).2) :=
  ⟨by decide, by decide, by decide,
    claim_C10 [97] [98, 10] 10 10 (by decide) (by decide) (by decide)⟩

-- ---------------------------------------------------------------------------
-- text model for the record decoders

/-- Whitespace characters stripped by Python `str.strip()` and separating
tokens in `str.split()`: space, tab, LF, CR, VT, FF. -/
def isPySpace (c : Char) : Bool :=
  c == ' ' || c == Char.ofNat 9 || c == Char.ofNat 10 ||
    c == Char.ofNat 13 || c == Char.ofNat 11 || c == Char.ofNat 12

/-- Python `str.strip()`: drop whitespace from both ends. -/
def pyStrip (s : List Char) : List Char :=
  ((s.dropWhile isPySpace).reverse.dropWhile isPySpace).reverse

/-- Python `str.split(",")`: split at every comma, keeping empty pieces. -/
def splitOnComma : List Char → List (List Char)
  | [] => [[]]
  | c :: rest =>
    let r := splitOnComma rest
    if c = ',' then [] :: r
    else
      match r with
      | [] => [[c]]
      | f :: fs => (c :: f) :: fs

/-- Helper for `pySplitWs`, accumulating the current word reversed. -/
def pySplitWsGo : List Char → List Char → List (List Char)
  | cur, [] => if cur = [] then [] else [cur.reverse]
  | cur, c :: rest =>
    if isPySpace c = true then
      if cur = [] then pySplitWsGo [] rest
      else cur.reverse :: pySplitWsGo [] rest
    else pySplitWsGo (c :: cur) rest

/-- Python `str.split()` with no separator: split on whitespace runs,
producing no empty tokens. -/
def pySplitWs (s : List Char) : List (List Char) :=
  pySplitWsGo [] s

/-- Numeric value of a digit run, most significant first. -/
def digitsVal (l : List Char) : Nat :=
  l.foldl (fun a c => 10 * a + (c.toNat - 48)) 0

/-- Exponent part of a Python float literal: optional sign then digits; the
already parsed mantissa numerator `n` and denominator `d` are scaled by the
power of ten (values are built with `mkRat` so they are machine-evaluable). -/
def parseExp (n : ℤ) (d : Nat) (l : List Char) : Option ℚ :=
  let neg : Bool := match l with
    | '-' :: _ => true
    | _ => false
  let l2 : List Char := match l with
    | '+' :: r => r
    | '-' :: r => r
    | _ => l
  let ds := l2.takeWhile Char.isDigit
  if ds = [] ∨ l2.dropWhile Char.isDigit ≠ [] then none
  else if neg = true then some (mkRat n (d * 10 ^ digitsVal ds))
  else some (mkRat (n * (10 : ℤ) ^ digitsVal ds) d)

/-- Unsigned decimal part of a Python float literal: digits with an optional
fractional part and an optional exponent; at least one digit is required. -/
def parseDec (l : List Char) : Option ℚ :=
  let ip := l.takeWhile Char.isDigit
  let r1 := l.dropWhile Char.isDigit
  let fp : List Char := match r1 with
    | '.' :: r => r.takeWhile Char.isDigit
    | _ => []
  let r2 : List Char := match r1 with
    | '.' :: r => r.dropWhile Char.isDigit
    | _ => r1
  if ip = [] ∧ fp = [] then none
  else
    let n : ℤ := (digitsVal ip * 10 ^ fp.length + digitsVal fp : Nat)
    let d : Nat := 10 ^ fp.length
    match r2 with
    | [] => some (mkRat n d)
    | c :: r => if c = 'e' ∨ c = 'E' then parseExp n d r else none

/-- Python `float(s)` on the decimal literals the device protocol uses:
surrounding whitespace allowed, optional sign, digits with optional fraction
and exponent; `none` models the `ValueError` the callers catch.  (The inf/nan
and underscore forms Python also accepts are irrelevant to this protocol and
are not modelled.) -/
def pyFloat? (s : List Char) : Option ℚ :=
  match pyStrip s with
  | '+' :: r => parseDec r
  | '-' :: r => (parseDec r).map (fun q => mkRat (-q.num) q.den)
  | t => parseDec t

/-- The 3-field record decoder `parse_line` of Test_BLE_Sense.py: strip the
line, split on commas, require exactly three fields, parse all three as
floats; any failure yields `none` instead of an exception. -/
def parse_line (line : List Char) : Option (ℚ × ℚ × ℚ) :=
  let parts := splitOnComma (pyStrip line)
  if parts.length ≠ 3 then none
  else
    match pyFloat? (parts.getD 0 []), pyFloat? (parts.getD 1 []),
        pyFloat? (parts.getD 2 []) with
    | some a, some b, some c => some (a, b, c)
    | _, _, _ => none

/-- C3.  In 3-field mode the record decoder maps "1,2" (wrong arity) to none,
"1,x,3" (unparsable float) to none and "1,2,3" to the record (1, 2, 3); and
for every input line it returns either a complete record or none — decoding
is a total function, so it never raises. -/
theorem claim_C3 :
    parse_line ("1,2".toList) = none ∧
    parse_line ("1,x,3".toList) = none ∧
    parse_line ("1,2,3".toList) = some (1, 2, 3) ∧
    ∀ s : List Char, parse_line s = none ∨ ∃ r, parse_line s = some r := by
  refine ⟨by decide, by decide, by decide, ?_⟩
  intro s
  cases h : parse_line s with
  | none => exact Or.inl rfl
  | some r => exact Or.inr ⟨r, rfl⟩

-- ---------------------------------------------------------------------------
-- the 7-field IMU decoder parse_csv_line of xiao_imu_ble_final.py

/-- Record type for IMU samples: (t, ax, ay, az, gx, gy, gz). -/
abbrev Rec6 := ℚ × ℚ × ℚ × ℚ × ℚ × ℚ

/-- Full IMU record: timestamp and six channels. -/
abbrev Rec7 := ℚ × Rec6

/-- The required key set for the key:value shape. -/
def EXPECTED_KEYS : List (List Char) :=
  ["ax".toList, "ay".toList, "az".toList, "gx".toList, "gy".toList, "gz".toList]

/-- Accumulated key:value dictionary restricted to the six expected keys. -/
structure KV where
  ax : Option ℚ
  ay : Option ℚ
  az : Option ℚ
  gx : Option ℚ
  gy : Option ℚ
  gz : Option ℚ

/-- Empty dictionary `kv = {}`. -/
def KV.empty : KV := ⟨none, none, none, none, none, none⟩

/-- Store `kv[k] = q` for an expected key `k`. -/
def setKV (kv : KV) (k : List Char) (q : ℚ) : KV :=
  if k = "ax".toList then { kv with ax := some q }
  else if k = "ay".toList then { kv with ay := some q }
  else if k = "az".toList then { kv with az := some q }
  else if k = "gx".toList then { kv with gx := some q }
  else if k = "gy".toList then { kv with gy := some q }
  else if k = "gz".toList then { kv with gz := some q }
  else kv

/-- The token loop of the key:value branch: tokens without a colon are
skipped; a token whose key is expected but whose value fails `float()`
aborts the whole parse (`return None`), modelled as `none`. -/
def procToks (kv : KV) : List (List Char) → Option KV
  | [] => some kv
  | tok :: rest =>
    if tok.contains ':' = false then procToks kv rest
    else
      let k := tok.takeWhile (fun c => c != ':')
      let v := (tok.dropWhile (fun c => c != ':')).drop 1
      if k ∈ EXPECTED_KEYS then
        match pyFloat? v with
        | some q => procToks (setKV kv k q) rest
        | none => none
      else procToks kv rest

/-- Final check `all(k in kv for k in EXPECTED_KEYS)`: a record is produced
only when all six keys were seen; `t` defaults to 0 in this shape. -/
def kvComplete (kv : KV) : Option Rec7 :=
  match kv.ax, kv.ay, kv.az, kv.gx, kv.gy, kv.gz with
  | some ax, some ay, some az, some gx, some gy, some gz =>
    some (0, ax, ay, az, gx, gy, gz)
  | _, _, _, _, _, _ => none

/-- Unpacking `t, ax, ay, az, gx, gy, gz = (float(x) for x in parts[:7])`:
all seven fields must parse, otherwise the `ValueError` handler returns
`none`. -/
def floats7 (parts : List (List Char)) : Option Rec7 :=
  match parts.map pyFloat? with
  | [some t, some ax, some ay, some az, some gx, some gy, some gz] =>
    some (t, ax, ay, az, gx, gy, gz)
  | _ => none

/-- The IMU frame decoder `parse_csv_line` of xiao_imu_ble_final.py: empty,
"#"-prefixed and "err"-prefixed stripped lines are silently ignored; a line
with commas and no colon and at least 7 fields is parsed positionally (first
7 fields); a line with colons is parsed as key:value tokens; everything else
is rejected. -/
def parse_csv_line (line : List Char) : Option Rec7 :=
  let s := pyStrip line
  if s = [] ∨ List.isPrefixOf ("#".toList) s = true ∨
      List.isPrefixOf ("err".toList) s = true then none
  else if s.contains ',' = true ∧ s.contains ':' = false ∧
      7 ≤ (splitOnComma s).length then
    floats7 ((splitOnComma s).take 7)
  else if s.contains ':' = true then
    match procToks KV.empty (pySplitWs s) with
    | some kv => kvComplete kv
    | none => none
  else none

/-- C9.  The record decoder silently ignores (maps to none, without raising)
every frame whose stripped text begins with "err", exactly like the empty and
"#"-prefixed frames: device error lines are never delivered as records. -/
theorem claim_C9 (line : List Char)
    (h : List.isPrefixOf ("err".toList) (pyStrip line) = true) :
    parse_csv_line line = none := by
  simp only [parse_csv_line]
  rw [if_pos (Or.inr (Or.inr h))]

/-- Witness for C9 at the concrete device error line "err: imu timeout". -/
theorem claim_C9_witness :
    List.isPrefixOf ("err".toList) (pyStrip ("err: imu timeout".toList)) = true ∧
    parse_csv_line ("err: imu timeout".toList) = none :=
  ⟨by decide, claim_C9 ("err: imu timeout".toList) (by decide)⟩

-- ---------------------------------------------------------------------------
-- consumer-side timestamp handling (pump_queue_into_buffers)

/-- Timestamp rewrite applied by `pump_queue_into_buffers` to each drained
row before appending: `t_rel = (time.time() - ss.t0) if ss.t0 else
(t if t else 0.0)`.  Python truthiness makes `ss.t0` falsy when it is `None`
or `0.0` and `t` falsy when it is `0.0`. -/
def pumpRow (t0 : Option ℚ) (now : ℚ) (row : Rec7) : Rec7 :=
  let t_rel : ℚ :=
    match t0 with
    | some z => if z ≠ 0 then now - z else if row.1 ≠ 0 then row.1 else 0
    | none => if row.1 ≠ 0 then row.1 else 0
  (t_rel, row.2)

/-- C2 (amended).  During an active session (session start time `t0` set and
nonzero) the consumer replaces every record timestamp — zero or not — with
the wall-clock offset `now - t0` when appending to the buffers; the
device-supplied timestamp is kept only when no session start time is set.
The unamended claim fails because a nonzero device timestamp is not kept
as-is while `t0` is set. -/
theorem claim_C2 :
    (∀ (z now t : ℚ) (v : Rec6), z ≠ 0 →
      pumpRow (some z) now (t, v) = (now - z, v)) ∧
    (∀ (now t : ℚ) (v : Rec6), pumpRow none now (t, v) = (t, v)) := by
  constructor
  · intro z now t v hz
    simp [pumpRow, hz]
  · intro now t v
    by_cases ht : t = 0
    · simp [pumpRow, ht]
    · simp [pumpRow, ht]

/-- C2 counterexample.  With session start `t0 = 100` and wall clock 107, a
record carrying the nonzero device timestamp 5 is appended with timestamp 7,
not 5: the nonzero device-supplied timestamp is not kept as-is. -/
theorem claim_C2_cex :
    pumpRow (some 100) 107 (5, (1, 2, 3, 4, 5, 6)) ≠
      ((5 : ℚ), ((1 : ℚ), (2 : ℚ), (3 : ℚ), (4 : ℚ), (5 : ℚ), (6 : ℚ))) := by
  intro hcon
  have h1 : (107 : ℚ) - 100 = 5 := by
    have h2 := congrArg Prod.fst hcon
    simpa [pumpRow] using h2
  norm_num at h1

/-- Witness for C2 at concrete inputs: replacement with `t0 = 100` set, and
preservation with `t0` unset. -/
theorem claim_C2_witness :
    ((100 : ℚ) ≠ 0 ∧
      pumpRow (some 100) 107 (5, (1, 2, 3, 4, 5, 6)) =
        ((107 : ℚ) - 100, (1, 2, 3, 4, 5, 6))) ∧
    pumpRow none 107 (5, (1, 2, 3, 4, 5, 6)) =
      ((5 : ℚ), ((1 : ℚ), (2 : ℚ), (3 : ℚ), (4 : ℚ), (5 : ℚ), (6 : ℚ))) :=
  ⟨⟨by simp, claim_C2.1 100 107 5 (1, 2, 3, 4, 5, 6) (by simp)⟩,
    claim_C2.2 107 5 (1, 2, 3, 4, 5, 6)⟩

-- ---------------------------------------------------------------------------
-- ring buffer (deque with maxlen) and session accumulator

/-- Append to the live-view ring `ss.data = deque(maxlen=N)`: the new record
goes on the right and, when the deque is at capacity, the oldest (leftmost)
record is evicted. -/
def dequeAppend {α : Type} (N : Nat) (d : List α) (x : α) : List α :=
  (d ++ [x]).drop (d.length + 1 - N)

theorem foldl_dequeAppend {α : Type} (N : Nat) :
    ∀ (xs d : List α), d.length ≤ N →
    List.foldl (dequeAppend N) d xs =
      (d ++ xs).drop (d.length + xs.length - N) := by
  intro xs
  induction xs with
  | nil =>
    intro d hd
    simp only [List.foldl_nil, List.append_nil, List.length_nil, Nat.add_zero]
    rw [Nat.sub_eq_zero_of_le hd, List.drop_zero]
  | cons x xs ih =>
    intro d hd
    simp only [List.foldl_cons]
    have hd2len : (dequeAppend N d x).length = d.length + 1 - (d.length + 1 - N) := by
      simp [dequeAppend, List.length_drop]
    have hd2 : (dequeAppend N d x).length ≤ N := by omega
    rw [ih (dequeAppend N d x) hd2]
    have hm : d.length + 1 - N ≤ (d ++ [x]).length := by
      simp only [List.length_append, List.length_cons, List.length_nil]
      omega
    rw [show dequeAppend N d x = (d ++ [x]).drop (d.length + 1 - N) from rfl]
    rw [drop_append_le (d ++ [x]) xs (d.length + 1 - N) hm, List.drop_drop]
    have hassoc : (d ++ [x]) ++ xs = d ++ x :: xs := by simp
    rw [hassoc]
    congr 1
    simp only [List.length_drop, List.length_append, List.length_cons,
      List.length_nil]
    omega

/-- C5.  Pushing a sequence of N+k records through the capacity-N ring leaves
exactly the last N records in insertion order (oldest to newest); the ring
length never exceeds N after any push sequence; and the accumulator, which
plainly appends, retains all N+k records. -/
theorem claim_C5 {α : Type} (N k : Nat) (xs : List α) (h : xs.length = N + k) :
    List.foldl (dequeAppend N) [] xs = xs.drop k ∧
    (∀ ys : List α, (List.foldl (dequeAppend N) [] ys).length ≤ N) ∧
    List.foldl (fun acc x => acc ++ [x]) [] xs = xs := by
  refine ⟨?_, ?_, ?_⟩
  · have h1 := foldl_dequeAppend N xs [] (by simp)
    simp only [List.nil_append, List.length_nil, Nat.zero_add] at h1
    rw [h1]
    congr 1
    omega
  · intro ys
    have h1 := foldl_dequeAppend N ys [] (by simp)
    simp only [List.nil_append, List.length_nil, Nat.zero_add] at h1
    rw [h1]
    simp only [List.length_drop]
    omega
  · have hacc : ∀ (zs d : List α),
        List.foldl (fun acc x => acc ++ [x]) d zs = d ++ zs := by
      intro zs
      induction zs with
      | nil => intro d; simp
      | cons z zs ih => intro d; simp [ih]
    simpa using hacc xs []

/-- Witness for C5: ring of capacity 2, three pushes keep the last two
records in order while the accumulator keeps all three. -/
theorem claim_C5_witness :
    ([10, 20, 30] : List Nat).length = 2 + 1 ∧
    (List.foldl (dequeAppend 2) [] [10, 20, 30] = [10, 20, 30].drop 1 ∧
      (∀ ys : List Nat, (List.foldl (dequeAppend 2) [] ys).length ≤ 2) ∧
      List.foldl (fun acc x => acc ++ [x]) [] [10, 20, 30] = [10, 20, 30]) :=
  ⟨by decide, claim_C5 2 1 [10, 20, 30] (by decide)⟩

-- ---------------------------------------------------------------------------
-- bounded relay channel

/-- Producer push `q_parsed.put_nowait(row)` under `except queue.Full: pass`:
`queue.Queue(maxsize)` raises Full exactly when it is bounded and already
holds `maxsize` items, so the new record is silently dropped then; otherwise
it is appended on the right (FIFO). -/
def put_nowait {α : Type} (maxsize : Nat) (q : List α) (x : α) : List α :=
  if 0 < maxsize ∧ maxsize ≤ q.length then q else q ++ [x]

theorem foldl_put_nowait {α : Type} (cap : Nat) (hcap : 0 < cap) :
    ∀ (xs q : List α), q.length ≤ cap →
    List.foldl (put_nowait cap) q xs = q ++ xs.take (cap - q.length) := by
  intro xs
  induction xs with
  | nil => intro q hq; simp
  | cons x xs ih =>
    intro q hq
    simp only [List.foldl_cons]
    by_cases hfull : cap ≤ q.length
    · have h1 : put_nowait cap q x = q := by
        simp [put_nowait, hcap, hfull]
      rw [h1, ih q hq, Nat.sub_eq_zero_of_le hfull]
      simp
    · have hlt : q.length < cap := Nat.lt_of_not_le hfull
      have h1 : put_nowait cap q x = q ++ [x] := by
        rw [put_nowait, if_neg]
        intro hcon
        exact hfull hcon.2
      rw [h1, ih (q ++ [x]) (by simp; omega)]
      have h2 : cap - q.length = (cap - (q.length + 1)) + 1 := by omega
      rw [h2, List.take_succ_cons]
      simp

/-- C6.  A push onto a full bounded relay channel silently drops the newly
pushed (newest) record without blocking or raising, leaving the channel
contents — hence their FIFO order — untouched; pushing any overlong sequence
into the empty channel retains exactly the first `cap` records in order and
drops only the newest excess. -/
theorem claim_C6 {α : Type} (cap : Nat) (hcap : 0 < cap) :
    (∀ (q : List α) (x : α), cap ≤ q.length → put_nowait cap q x = q) ∧
    (∀ xs : List α, List.foldl (put_nowait cap) [] xs = xs.take cap) := by
  constructor
  · intro q x hq
    simp [put_nowait, hcap, hq]
  · intro xs
    have h1 := foldl_put_nowait cap hcap xs [] (by simp)
    simpa using h1

/-- Witness for C6: capacity-2 channel; a push onto the full channel [1, 2]
is dropped, and pushing five records into the empty channel keeps the first
two. -/
theorem claim_C6_witness :
    (0 < 2 ∧ 2 ≤ ([1, 2] : List Nat).length ∧ put_nowait 2 [1, 2] 3 = [1, 2]) ∧
    List.foldl (put_nowait 2) ([] : List Nat) [5, 6, 7, 8, 9] =
      [5, 6, 7, 8, 9].take 2 :=
  ⟨⟨by decide, by decide, (claim_C6 2 (by decide)).1 [1, 2] 3 (by decide)⟩,
    (claim_C6 2 (by decide)).2 [5, 6, 7, 8, 9]⟩

-- ---------------------------------------------------------------------------
-- command/response exchange (BLEManager.send_and_wait)

/-- The timeout sentinel returned by `send_and_wait`. -/
def noReplyMsg : List Char := "(no reply)".toList

/-- Effect of `BLEManager.send` on the single-slot reply cell: it assigns
`self.last_reply = ""` before scheduling the write, discarding whatever
stale reply was stored. -/
def sendClear (prev : List Char) : List Char :=
  match prev with
  | _ => []

/-- Contents of the reply cell at successive 20 ms poll instants: `init`
right after the send, then each later instant shows the latest notify
payload written so far (`_notify` overwrites the cell). -/
def cellTrace (init : List Char) (notify : Nat → Option (List Char)) :
    Nat → List Char
  | 0 => init
  | k + 1 =>
    match notify k with
    | some r => r
    | none => cellTrace init notify k

/-- The polling loop of `send_and_wait`: at each instant check the cell and
return its contents if non-empty, else sleep 0.02 s; when the fuel (the
number of instants with elapsed time below the timeout) runs out, return the
sentinel.  The second component is the poll index at which it returned. -/
def pollLoop (cell : Nat → List Char) : Nat → Nat → List Char × Nat
  | k, 0 => (noReplyMsg, k)
  | k, n + 1 =>
    if cell k = [] then pollLoop cell (k + 1) n else (cell k, k)

/-- Number of poll instants k with 20·k < timeout (in milliseconds): the
while-condition `time.perf_counter() - t0 < timeout_s` holds exactly that
often at 20 ms per iteration. -/
def pollBudget (timeoutMs : Nat) : Nat := (timeoutMs + 19) / 20

/-- `BLEManager.send_and_wait`: clear the previous reply via `send`, then
poll the reply cell every 20 ms until a non-empty reply or the timeout. -/
def send_and_wait (prev : List Char) (notify : Nat → Option (List Char))
    (timeoutMs : Nat) : List Char × Nat :=
  pollLoop (cellTrace (sendClear prev) notify) 0 (pollBudget timeoutMs)

theorem cellTrace_allnone (init : List Char)
    (notify : Nat → Option (List Char)) (h : ∀ k, notify k = none) :
    ∀ k, cellTrace init notify k = init := by
  intro k
  induction k with
  | zero => rfl
  | succ k ih => simp [cellTrace, h k, ih]

theorem pollLoop_none (cell : Nat → List Char) (h : ∀ k, cell k = []) :
    ∀ n k0, pollLoop cell k0 n = (noReplyMsg, k0 + n) := by
  intro n
  induction n with
  | zero => intro k0; rfl
  | succ n ih =>
    intro k0
    simp only [pollLoop, h k0, if_pos]
    rw [ih (k0 + 1)]
    simp only [Prod.mk.injEq, true_and]
    omega

theorem pollLoop_first (cell : Nat → List Char) :
    ∀ n k0 k, k0 ≤ k → k < k0 + n →
    (∀ j, k0 ≤ j → j < k → cell j = []) → cell k ≠ [] →
    pollLoop cell k0 n = (cell k, k) := by
  intro n
  induction n with
  | zero => intro k0 k hk0 hkn _ _; omega
  | succ n ih =>
    intro k0 k hk0 hkn hj hck
    by_cases h0 : cell k0 = []
    · have hne : k0 ≠ k := by
        intro he
        rw [he] at h0
        exact hck h0
      simp only [pollLoop, h0, if_pos]
      exact ih (k0 + 1) k (by omega) (by omega)
        (fun j hj1 hj2 => hj j (by omega) hj2) hck
    · have hk0k : k0 = k := by
        by_contra hne
        exact h0 (hj k0 le_rfl (by omega))
      simp only [pollLoop]
      rw [if_neg h0, hk0k]

theorem pollBudget_ge (T : Nat) : T ≤ 20 * pollBudget T := by
  have h1 := Nat.div_add_mod (T + 19) 20
  have h2 : (T + 19) % 20 < 20 := Nat.mod_lt _ (by omega)
  unfold pollBudget
  omega

/-- C7.  `send_and_wait` clears the previous reply before sending, so the
result never depends on a stale reply; polling the reply cell at 20 ms
intervals it returns the first non-empty reply appearing within the timeout;
and against a stub that never replies it returns the "(no reply)" sentinel
only once the elapsed polling time has reached the configured timeout, never
before. -/
theorem claim_C7 :
    (∀ (prev1 prev2 : List Char) (notify : Nat → Option (List Char))
        (T : Nat), send_and_wait prev1 notify T = send_and_wait prev2 notify T) ∧
    (∀ (prev : List Char) (notify : Nat → Option (List Char)) (T : Nat),
      (∀ k, notify k = none) →
      (send_and_wait prev notify T).1 = noReplyMsg ∧
        T ≤ 20 * (send_and_wait prev notify T).2) ∧
    (∀ (prev : List Char) (notify : Nat → Option (List Char)) (T k : Nat),
      20 * k < T → cellTrace [] notify k ≠ [] →
      (∀ j, j < k → cellTrace [] notify j = []) →
      send_and_wait prev notify T = (cellTrace [] notify k, k)) := by
  refine ⟨fun prev1 prev2 notify T => rfl, ?_, ?_⟩
  · intro prev notify T h
    have hcell : ∀ j, cellTrace (sendClear prev) notify j = [] := by
      intro j
      exact cellTrace_allnone [] notify h j
    rw [send_and_wait, pollLoop_none _ hcell (pollBudget T) 0]
    exact ⟨rfl, by simpa using pollBudget_ge T⟩
  · intro prev notify T k hT hk hj
    have hkb : k < 0 + pollBudget T := by
      have := pollBudget_ge T
      omega
    rw [send_and_wait]
    exact pollLoop_first (cellTrace [] notify) (pollBudget T) 0 k
      (Nat.zero_le k) hkb (fun j _ hj2 => hj j hj2) hk

/-- Witness for C7 with a 100 ms timeout: the silent stub returns the
sentinel after five polls (100 ms elapsed), and a stub whose reply "OK D7"
lands before the second poll gets that reply returned at poll index 2. -/
theorem claim_C7_witness :
    (((send_and_wait ("stale".toList) (fun _ => none) 100).1 = noReplyMsg ∧
      100 ≤ 20 * (send_and_wait ("stale".toList) (fun _ => none) 100).2)) ∧
    send_and_wait ("stale".toList)
        (fun k => if k = 1 then some ("OK D7".toList) else none) 100 =
      (cellTrace [] (fun k => if k = 1 then some ("OK D7".toList) else none) 2, 2) :=
  ⟨claim_C7.2.1 ("stale".toList) (fun _ => none) 100 (fun _ => rfl),
    claim_C7.2.2 ("stale".toList)
      (fun k => if k = 1 then some ("OK D7".toList) else none) 100 2
      (by decide) (by decide) (by decide)⟩

-- ---------------------------------------------------------------------------
-- session bookkeeping (start_reader / pump / stop_reader_and_save)

/-- Ring capacity `RING = 4000` of xiao_imu_ble_final.py. -/
def RING : Nat := 4000

/-- The per-session state the Start/Stop handlers touch: whether the reader
thread is alive, the session start time `ss.t0`, the live ring `ss.data`,
the accumulator `ss.all_rows`, and the built CSV (`ss.download_bytes`,
modelled by the record sequence the document serialises). -/
structure Session where
  running : Bool
  t0 : Option ℚ
  data : List Rec7
  all_rows : List Rec7
  download : Option (List Rec7)

/-- `start_reader`: a no-op while the reader thread is alive; otherwise it
clears the ring, the accumulator and the previous download, stamps
`ss.t0 = time.time()` and starts the thread. -/
def start_reader (s : Session) (now : ℚ) : Session :=
  if s.running = true then s
  else
    { running := true, t0 := some now, data := [], all_rows := [],
      download := none }

/-- `stop_reader_and_save`: stop the thread and, when the accumulator is
non-empty, build the CSV document from it; the accumulator itself is not
cleared. -/
def stop_reader_and_save (s : Session) : Session :=
  { s with
    running := false,
    download := if s.all_rows.isEmpty = true then s.download
      else some s.all_rows }

/-- `pump_queue_into_buffers`: append each drained row, timestamp-rewritten
by `pumpRow`, to both the ring and the accumulator. -/
def pump_queue_into_buffers (s : Session) (now : ℚ) (rows : List Rec7) :
    Session :=
  rows.foldl (fun st row =>
    { st with
      data := dequeAppend RING st.data (pumpRow st.t0 now row),
      all_rows := st.all_rows ++ [pumpRow st.t0 now row] }) s

set_option maxRecDepth 4000 in
theorem pump_appends (rows : List Rec7) :
    ∀ (s : Session) (now : ℚ), ∃ tail,
    (pump_queue_into_buffers s now rows).all_rows = s.all_rows ++ tail := by
  induction rows with
  | nil => intro s now; exact ⟨[], by simp [pump_queue_into_buffers]⟩
  | cons r rows ih =>
    intro s now
    obtain ⟨t, ht⟩ := ih
      { s with
        data := dequeAppend RING s.data (pumpRow s.t0 now r),
        all_rows := s.all_rows ++ [pumpRow s.t0 now r] } now
    refine ⟨pumpRow s.t0 now r :: t, ?_⟩
    have hstep : pump_queue_into_buffers s now (r :: rows) =
        pump_queue_into_buffers
          { s with
            data := dequeAppend RING s.data (pumpRow s.t0 now r),
            all_rows := s.all_rows ++ [pumpRow s.t0 now r] } now rows := by
      simp only [pump_queue_into_buffers, List.foldl_cons]
    rw [hstep, ht]
    simp

/-- C8 (amended).  The session accumulator is reset to empty exactly once per
session-starting Start request (a Start received while the reader is already
running is a no-op and does not reset); no other operation ever removes
records — pumping only appends and Stop leaves the accumulator intact while
building the CSV document from it.  The unamended claim fails because a Start
request arriving while the reader thread is alive resets nothing. -/
theorem claim_C8 :
    (∀ (s : Session) (now : ℚ), s.running = false →
      (start_reader s now).all_rows = [] ∧ (start_reader s now).running = true) ∧
    (∀ (s : Session) (now : ℚ), s.running = true → start_reader s now = s) ∧
    (∀ (s : Session) (now : ℚ) (rows : List Rec7), ∃ tail,
      (pump_queue_into_buffers s now rows).all_rows = s.all_rows ++ tail) ∧
    (∀ s : Session, (stop_reader_and_save s).all_rows = s.all_rows ∧
      (s.all_rows ≠ [] →
        (stop_reader_and_save s).download = some s.all_rows)) := by
  refine ⟨?_, ?_, ?_, ?_⟩
  · intro s now h
    constructor <;> simp [start_reader, h]
  · intro s now h
    simp [start_reader, h]
  · intro s now rows
    exact pump_appends rows s now
  · intro s
    constructor
    · simp [stop_reader_and_save]
    · intro h
      have h2 : s.all_rows.isEmpty = false := by
        cases hh : s.all_rows with
        | nil => exact absurd hh h
        | cons a l => rfl
      simp [stop_reader_and_save, h2]

/-- A session with a live reader thread and one accumulated record. -/
def sRunning : Session :=
  { running := true, t0 := some 1, data := [],
    all_rows := [(1, (2, 3, 4, 5, 6, 7))], download := none }

/-- An idle session as left by a previous Stop. -/
def sIdle : Session :=
  { running := false, t0 := none, data := [], all_rows := [],
    download := none }

/-- C8 counterexample.  A Start request while the reader thread is alive
leaves the non-empty accumulator untouched, so the accumulator is not "reset
to empty exactly once per Start request" as stated. -/
theorem claim_C8_cex : (start_reader sRunning 5).all_rows ≠ [] := by
  intro h
  simp [start_reader, sRunning] at h

/-- Witness for C8 at concrete sessions: Start from idle resets and starts;
Start while running is a no-op; pumping appends; Stop keeps the accumulator
and builds the document from it. -/
theorem claim_C8_witness :
    ((start_reader sIdle 1).all_rows = [] ∧
      (start_reader sIdle 1).running = true) ∧
    start_reader sRunning 1 = sRunning ∧
    (∃ tail, (pump_queue_into_buffers sIdle 1 [(1, (2, 3, 4, 5, 6, 7))]).all_rows =
      sIdle.all_rows ++ tail) ∧
    ((stop_reader_and_save sRunning).all_rows = sRunning.all_rows ∧
      (sRunning.all_rows ≠ [] →
        (stop_reader_and_save sRunning).download = some sRunning.all_rows)) :=
  ⟨claim_C8.1 sIdle 1 rfl, claim_C8.2.1 sRunning 1 rfl,
    claim_C8.2.2.1 sIdle 1 [(1, (2, 3, 4, 5, 6, 7))],
    claim_C8.2.2.2 sRunning⟩
